import Mathlib

/-!
# Verification of the rail-fence cipher (src/lib.rs)

Shallow embedding of the Rust library `rail_fence_cipher`.

Modelling conventions:
* Rust `String` / `&str` values are modelled as `List Char` (Rust iterates
  them with `chars()`, i.e. by Unicode scalar values, which coincide with
  Lean's `Char`).
* Rust machine integers are modelled as `Nat`, with the `u32` casts of the
  source modelled explicitly as `% 4294967296` (`= 2^32`): the truncating
  `i as u32` of the rail update (line 60), the `cipher_length as u32` of
  the section/remainder computation (lines 101-102), and the wrapping
  `u32` loop counter of the redistribution loop (lines 134-144, release
  semantics: the stored counter always equals the true step count modulo
  `2^32`).  `usize` values (positions, vector indexes, the start offsets)
  stay `Nat`: a Rust string cannot approach `2^64` bytes.
* Every Rust panic (integer division by zero, index out of bounds,
  subtraction overflow, string slicing outside a char boundary) is
  modelled as `Option.none`.
* `&s[a..b]` in Rust slices by *byte* offsets and panics when an offset is
  not a UTF-8 character boundary; `dropBytes`/`takeBytes`/`byteSlice`
  model this on `List Char` using the UTF-8 width of each character.
-/

namespace RailFenceCipher

/-- UTF-8 byte width of a character, as in Rust `char::len_utf8`. -/
def utf8Len (c : Char) : Nat :=
  if c.toNat < 128 then 1
  else if c.toNat < 2048 then 2
  else if c.toNat < 65536 then 3
  else 4

/-- Rail fence structure: holds the number of rails (`struct RailFence`). -/
structure RailFence where
  rails : Nat

/-- `RailFence::new`: stores the rail count as given, no validation. -/
def RailFence.new (rails : Nat) : RailFence := ⟨rails⟩

/-- The `for (i, c) in message.chars().enumerate()` loop of `encode`
(src/lib.rs lines 58-65).  State: current position `i`, current rail `f`,
buckets `rails`.  The update divides `i as u32` — a truncating cast,
modelled as `i % 4294967296` — by `self.rails - 1`.  `none` models the
panics: `rails[f]` out of bounds, division by zero in
`i as u32 / (self.rails - 1)`, and `f - 1` underflow. -/
def encodeLoop (rails : Nat) : List Char → Nat → Nat → List (List Char) →
    Option (List (List Char))
  | [], _, _, buckets => some buckets
  | c :: cs, i, f, buckets =>
    if f < buckets.length then
      let buckets := buckets.set f (buckets.getD f [] ++ [c])
      if rails - 1 = 0 then none
      else if i % 4294967296 / (rails - 1) % 2 = 0 then
        encodeLoop rails cs (i + 1) (f + 1) buckets
      else if f = 0 then none
      else encodeLoop rails cs (i + 1) (f - 1) buckets
    else none

/-- `RailFence::encode` (src/lib.rs lines 54-71): scatter the characters
into the rail buckets, then concatenate the buckets in rail order. -/
def RailFence.encode (self : RailFence) (text : List Char) : Option (List Char) :=
  (encodeLoop self.rails text 0 0 (List.replicate self.rails [])).map List.flatten

/-- The start-offset computation of `decode` (src/lib.rs lines 99-121):
`start[0] = 0`; `start[1] = section + 1` if `remainder > 0` else `section`;
for `k ≥ 2`: `start[k] = start[k-1] + 2*section`, plus 1 if
`remainder > k-1`, plus 1 if `remainder + (k-1) + 1 ≥ 2*rails`.
Here `section = cipher_length as u32 / (2*(rails-1))` and
`remainder = cipher_length as u32 % (2*(rails-1))` (lines 101-102); the
truncating cast is modelled as `length % 4294967296`. -/
def startOff (rails length : Nat) : Nat → Nat
  | 0 => 0
  | 1 =>
    if length % 4294967296 % (2 * (rails - 1)) > 0 then
      length % 4294967296 / (2 * (rails - 1)) + 1
    else length % 4294967296 / (2 * (rails - 1))
  | k + 2 =>
    startOff rails length (k + 1) + 2 * (length % 4294967296 / (2 * (rails - 1)))
      + (if length % 4294967296 % (2 * (rails - 1)) > k + 1 then 1 else 0)
      + (if length % 4294967296 % (2 * (rails - 1)) + (k + 1) + 1 ≥ 2 * rails
          then 1 else 0)

/-- Rust `&s[a..]`: drop the first `a` *bytes*; `none` when `a` is not a
character boundary or exceeds the byte length (a slicing panic). -/
def dropBytes : List Char → Nat → Option (List Char)
  | s, 0 => some s
  | [], _ + 1 => none
  | c :: cs, n + 1 =>
    if utf8Len c ≤ n + 1 then dropBytes cs (n + 1 - utf8Len c) else none

/-- First `n` *bytes* of a string as characters; `none` when `n` is not a
character boundary or exceeds the byte length (a slicing panic). -/
def takeBytes : List Char → Nat → Option (List Char)
  | _, 0 => some []
  | [], _ + 1 => none
  | c :: cs, n + 1 =>
    if utf8Len c ≤ n + 1 then (takeBytes cs (n + 1 - utf8Len c)).map (c :: ·)
    else none

/-- Rust `&s[a..b]`: byte-indexed slicing, `none` on any slicing panic
(`a > b`, offset out of bounds, offset inside a multi-byte character). -/
def byteSlice (s : List Char) (a b : Nat) : Option (List Char) :=
  if a ≤ b then (dropBytes s a).bind (fun t => takeBytes t (b - a)) else none

/-- The slicing loop of `decode` (src/lib.rs lines 124-130): rail `k` gets
`cipher[start[k]..start[k+1]]`, the last rail gets `cipher[start[k]..]`.
The offsets are computed from the *character* count but used as *byte*
indices, exactly as in the source. -/
def railSlices (rails : Nat) (cipher : List Char) : Option (List (List Char)) :=
  (List.range rails).mapM fun k =>
    if k = rails - 1 then dropBytes cipher (startOff rails cipher.length k)
    else byteSlice cipher (startOff rails cipher.length k)
      (startOff rails cipher.length (k + 1))

/-- The `while !rails[f].is_empty()` loop of `decode` (src/lib.rs lines
136-145).  Each iteration removes one character from bucket `f`, so the
loop runs at most (total characters + 1) times; the `fuel` argument is
initialised to that bound and never reaches 0 before the loop exits.
The letter index `i` is a `u32` in the source; its stored (wrapping)
value is `i % 4294967296` of the true step count carried here, so the rail
update divides `i % 4294967296` by `self.rails - 1`.  `none` models the
panics (`rails[f]` out of bounds, division by zero, `f - 1` underflow) and
the unreachable fuel exhaustion. -/
def decodeLoop (rails : Nat) : Nat → List (List Char) → Nat → Nat → List Char →
    Option (List Char)
  | 0, _, _, _, _ => none
  | fuel + 1, buckets, f, i, acc =>
    if f < buckets.length then
      if (buckets.getD f []).isEmpty then some acc
      else
        let c := (buckets.getD f []).headI
        let buckets := buckets.set f (buckets.getD f []).tail
        if rails - 1 = 0 then none
        else if i % 4294967296 / (rails - 1) % 2 = 0 then
          decodeLoop rails fuel buckets (f + 1) (i + 1) (acc ++ [c])
        else if f = 0 then none
        else decodeLoop rails fuel buckets (f - 1) (i + 1) (acc ++ [c])
    else none

/-- `RailFence::decode` (src/lib.rs lines 90-147).  `rails == 1` returns the
input unchanged; `rails == 0` panics before the slicing (the
`start[0] = 0` write indexes an empty vector, after the `self.rails - 1`
subtraction underflows); otherwise slice the cipher text at the computed
start offsets and gather the characters back in zig-zag order. -/
def RailFence.decode (self : RailFence) (cipher : List Char) : Option (List Char) :=
  if self.rails = 1 then some cipher
  else if self.rails = 0 then none
  else
    (railSlices self.rails cipher).bind fun buckets =>
      decodeLoop self.rails ((buckets.map List.length).sum + 1) buckets 0 0 []

/-- Modelled from the spec (§3): the zig-zag index sequence
`0, 1, …, rail_count-1, rail_count-2, …, 1, 0, 1, …` of period
`2*(rail_count-1)`: `i mod period`, reflected when in the second half of
the period. -/
def zigzag (rails i : Nat) : Nat :=
  if i % (2 * (rails - 1)) ≤ rails - 1 then i % (2 * (rails - 1))
  else 2 * (rails - 1) - i % (2 * (rails - 1))

/-- The incremental rail-index sequence of the code: start at rail 0,
increment when `i as u32 / (rails - 1) % 2 == 0`, decrement when it is 1
(src/lib.rs lines 60-64 and 139-143); the truncating cast is modelled as
`i % 4294967296`. -/
def railSeq (rails : Nat) : Nat → Nat
  | 0 => 0
  | i + 1 =>
    if i % 4294967296 / (rails - 1) % 2 = 0 then railSeq rails i + 1
    else railSeq rails i - 1

/-- One application of the code's rail update at position `i` to rail `f`
(the common body of lines 60-64 and 139-143). -/
def stepF (rails i f : Nat) : Nat :=
  if i % 4294967296 / (rails - 1) % 2 = 0 then f + 1 else f - 1

/-- `n` applications of the code's rail update, starting at position `i`
on rail `f`. -/
def runF (rails : Nat) : Nat → Nat → Nat → Nat
  | 0, _, f => f
  | n + 1, i, f => runF rails n (i + 1) (stepF rails i f)

/-- The characters of `cs` (whose first character sits at position `i`)
that the zig-zag sequence assigns to rail `r`, in order. -/
def scatter (rails : Nat) : List Char → Nat → Nat → List Char
  | [], _, _ => []
  | c :: cs, i, r =>
    (if zigzag rails i = r then [c] else []) ++ scatter rails cs (i + 1) r

/-- Number of positions `j < n` (counting from position `i`) that the
zig-zag sequence assigns to rail `r`. -/
def cntFrom (rails i n r : Nat) : Nat :=
  (List.range n).countP fun j => decide (zigzag rails (i + j) = r)

/-- Number of positions `j < L` that the zig-zag sequence assigns to
rail `r`. -/
def railCnt (rails L r : Nat) : Nat :=
  (List.range L).countP fun j => decide (zigzag rails j = r)

/-- Number of positions `j < L` assigned to a rail strictly below `k`:
the character-count start offset of rail `k` in the cipher text. -/
def cntBelow (rails L k : Nat) : Nat :=
  (List.range L).countP fun j => decide (zigzag rails j < k)

/-- All characters are ASCII (single-byte in UTF-8). -/
def allAscii (s : List Char) : Prop := ∀ c ∈ s, c.toNat < 128

instance (s : List Char) : Decidable (allAscii s) :=
  inferInstanceAs (Decidable (∀ c ∈ s, c.toNat < 128))

/-- Modelled from the spec: the start-offset formula as the spec states it,
whose second conditional increment is `remainder + i >= 2*rail_count - 1`
(the code uses `remainder + i >= 2*rail_count`). -/
def specStart (rails length : Nat) : Nat → Nat
  | 0 => 0
  | 1 =>
    if length % (2 * (rails - 1)) > 0 then length / (2 * (rails - 1)) + 1
    else length / (2 * (rails - 1))
  | k + 2 =>
    specStart rails length (k + 1) + 2 * (length / (2 * (rails - 1)))
      + (if length % (2 * (rails - 1)) > k + 1 then 1 else 0)
      + (if length % (2 * (rails - 1)) + (k + 2) ≥ 2 * rails - 1 then 1 else 0)

/-! ## Arithmetic helpers: the closed-form parity test and the zig-zag step -/

lemma succ_mod_eq {P i : Nat} (hP : 2 ≤ P) :
    (i + 1) % P = if i % P + 1 = P then 0 else i % P + 1 := by
  have h1 : (i + 1) % P = (i % P + 1) % P := by
    conv_lhs => rw [Nat.add_mod]
    rw [Nat.mod_eq_of_lt (a := 1) (by omega)]
  have hm : i % P < P := Nat.mod_lt _ (by omega)
  rw [h1]
  by_cases h : i % P + 1 = P
  · rw [h, Nat.mod_self]; simp [h]
  · rw [Nat.mod_eq_of_lt (by omega)]; simp [h]

lemma div_mod_two {r : Nat} (i : Nat) (hr : 0 < r) :
    i / r % 2 = i % (2 * r) / r := by
  have key : i = i % (2 * r) + (2 * (i / (2 * r))) * r :=
    calc i = 2 * r * (i / (2 * r)) + i % (2 * r) := (Nat.div_add_mod i (2 * r)).symm
    _ = i % (2 * r) + (2 * (i / (2 * r))) * r := by ring
  have hlt : i % (2 * r) / r < 2 := by
    rw [Nat.div_lt_iff_lt_mul hr]
    exact Nat.mod_lt _ (by omega)
  conv_lhs => rw [key]
  rw [Nat.add_mul_div_right _ _ hr, Nat.mul_comm 2 (i / (2 * r)),
    Nat.add_mul_mod_self_right]
  exact Nat.mod_eq_of_lt hlt

/-- On the descending half of the period the closed-form test is 0. -/
lemma parity_of_lt {rails i : Nat} (hr : 2 ≤ rails)
    (h : i % (2 * (rails - 1)) < rails - 1) : i / (rails - 1) % 2 = 0 := by
  rw [div_mod_two i (by omega)]
  exact Nat.div_eq_of_lt h

/-- On the ascending half of the period the closed-form test is 1. -/
lemma parity_of_ge {rails i : Nat} (hr : 2 ≤ rails)
    (h : rails - 1 ≤ i % (2 * (rails - 1))) : i / (rails - 1) % 2 = 1 := by
  rw [div_mod_two i (by omega)]
  have hm : i % (2 * (rails - 1)) < 2 * (rails - 1) := Nat.mod_lt _ (by omega)
  have h1 : 1 ≤ i % (2 * (rails - 1)) / (rails - 1) :=
    (Nat.one_le_div_iff (by omega)).2 h
  have h2 : i % (2 * (rails - 1)) / (rails - 1) < 2 := by
    rw [Nat.div_lt_iff_lt_mul (by omega)]
    omega
  omega

lemma zigzag_zero (rails : Nat) : zigzag rails 0 = 0 := by
  simp [zigzag]

lemma zigzag_le {rails : Nat} (i : Nat) (hr : 2 ≤ rails) :
    zigzag rails i ≤ rails - 1 := by
  have hm : i % (2 * (rails - 1)) < 2 * (rails - 1) := Nat.mod_lt _ (by omega)
  unfold zigzag
  split <;> omega

lemma zigzag_lt {rails : Nat} (i : Nat) (hr : 2 ≤ rails) :
    zigzag rails i < rails := by
  have := zigzag_le i hr
  omega

/-- The closed-form update of the code advances the zig-zag sequence:
increment when the parity test is 0. -/
lemma zigzag_succ_even {rails i : Nat} (hr : 2 ≤ rails)
    (h : i / (rails - 1) % 2 = 0) :
    zigzag rails (i + 1) = zigzag rails i + 1 := by
  have hm : i % (2 * (rails - 1)) < 2 * (rails - 1) := Nat.mod_lt _ (by omega)
  have hlt : i % (2 * (rails - 1)) < rails - 1 := by
    by_contra hge
    rw [parity_of_ge hr (by omega)] at h
    omega
  have hs : (i + 1) % (2 * (rails - 1)) = i % (2 * (rails - 1)) + 1 := by
    rw [succ_mod_eq (by omega)]
    split <;> omega
  unfold zigzag
  rw [hs]
  split <;> split <;> omega

/-- The closed-form update of the code advances the zig-zag sequence:
decrement when the parity test is 1; the current rail is then at least 1,
so the `f - 1` of the code never underflows. -/
lemma zigzag_succ_odd {rails i : Nat} (hr : 2 ≤ rails)
    (h : i / (rails - 1) % 2 = 1) :
    zigzag rails (i + 1) = zigzag rails i - 1 ∧ 1 ≤ zigzag rails i := by
  have hm : i % (2 * (rails - 1)) < 2 * (rails - 1) := Nat.mod_lt _ (by omega)
  have hge : rails - 1 ≤ i % (2 * (rails - 1)) := by
    by_contra hlt
    rw [parity_of_lt hr (by omega)] at h
    omega
  have hz : zigzag rails i = 2 * (rails - 1) - i % (2 * (rails - 1)) := by
    unfold zigzag
    split <;> omega
  by_cases hend : i % (2 * (rails - 1)) + 1 = 2 * (rails - 1)
  · have hs : (i + 1) % (2 * (rails - 1)) = 0 := by
      rw [succ_mod_eq (by omega)]; simp [hend]
    have hz1 : zigzag rails (i + 1) = 0 := by
      unfold zigzag; rw [hs]; simp
    constructor <;> omega
  · have hs : (i + 1) % (2 * (rails - 1)) = i % (2 * (rails - 1)) + 1 := by
      rw [succ_mod_eq (by omega)]; simp [hend]
    have hz1 : zigzag rails (i + 1) =
        2 * (rails - 1) - (i % (2 * (rails - 1)) + 1) := by
      unfold zigzag; rw [hs]; split <;> omega
    constructor <;> omega

/-- The incremental sequence of the code equals the zig-zag sequence as
long as every update position fits in a `u32`, i.e. up to position
`2^32`. -/
lemma railSeq_eq_zigzag {rails : Nat} (hr : 2 ≤ rails) (i : Nat)
    (hi : i ≤ 4294967296) : railSeq rails i = zigzag rails i := by
  induction i with
  | zero => simp [railSeq, zigzag_zero]
  | succ i ih =>
    have hiU : i % 4294967296 = i := Nat.mod_eq_of_lt (by omega)
    unfold railSeq
    rw [hiU]
    rcases Nat.mod_two_eq_zero_or_one (i / (rails - 1)) with h | h
    · rw [if_pos h, ih (by omega), zigzag_succ_even hr h]
    · rw [if_neg (by omega), ih (by omega), (zigzag_succ_odd hr h).1]

/-! ## Bucket helpers -/

lemma getD_set_self {α : Type} {l : List α} {f : Nat} {x d : α} (h : f < l.length) :
    (l.set f x).getD f d = x := by
  simp [List.getD_eq_getElem?_getD, List.getElem?_set_self h]

lemma getD_set_ne {α : Type} {l : List α} {f k : Nat} {x d : α} (h : f ≠ k) :
    (l.set f x).getD k d = l.getD k d := by
  simp [List.getD_eq_getElem?_getD, List.getElem?_set_ne h]

lemma sum_map_length_set (bs : List (List Char)) (f : Nat) (x : List Char) :
    f < bs.length →
    ((bs.set f x).map List.length).sum + (bs.getD f []).length
      = (bs.map List.length).sum + x.length := by
  induction bs generalizing f with
  | nil => intro hf; simp at hf
  | cons b bs ih =>
    intro hf
    cases f with
    | zero => simp; omega
    | succ f =>
      have := ih f (by simpa using hf)
      simp only [List.set, List.map_cons, List.sum_cons, List.getD_cons_succ]
      omega

/-! ## The encode loop scatters characters onto their zig-zag rails -/

lemma scatter_cons (rails : Nat) (c : Char) (cs : List Char) (i r : Nat) :
    scatter rails (c :: cs) i r =
      (if zigzag rails i = r then [c] else []) ++ scatter rails cs (i + 1) r := rfl

lemma encodeLoop_cons_even {rails : Nat} (c : Char) (cs : List Char) (i f : Nat)
    (bs : List (List Char)) (hf : f < bs.length) (hr1 : rails - 1 ≠ 0)
    (hpar : i % 4294967296 / (rails - 1) % 2 = 0) :
    encodeLoop rails (c :: cs) i f bs =
      encodeLoop rails cs (i + 1) (f + 1) (bs.set f (bs.getD f [] ++ [c])) := by
  simp [encodeLoop, hf, hr1, hpar]

lemma encodeLoop_cons_odd {rails : Nat} (c : Char) (cs : List Char) (i f : Nat)
    (bs : List (List Char)) (hf : f < bs.length) (hr1 : rails - 1 ≠ 0)
    (hpar : i % 4294967296 / (rails - 1) % 2 = 1) (hf0 : f ≠ 0) :
    encodeLoop rails (c :: cs) i f bs =
      encodeLoop rails cs (i + 1) (f - 1) (bs.set f (bs.getD f [] ++ [c])) := by
  simp [encodeLoop, hf, hr1, hpar, hf0]

lemma encodeLoop_spec {rails : Nat} (hr : 2 ≤ rails) (cs : List Char) :
    ∀ (i : Nat) (bs : List (List Char)), bs.length = rails →
      i + cs.length ≤ 4294967296 →
      ∃ bs', encodeLoop rails cs i (zigzag rails i) bs = some bs' ∧
        bs'.length = rails ∧
        ∀ k, k < rails → bs'.getD k [] = bs.getD k [] ++ scatter rails cs i k := by
  induction cs with
  | nil =>
    intro i bs hlen _
    exact ⟨bs, rfl, hlen, fun k _ => by simp [scatter]⟩
  | cons c cs ih =>
    intro i bs hlen hU
    have hiU : i % 4294967296 = i := by
      apply Nat.mod_eq_of_lt
      simp only [List.length_cons] at hU
      omega
    have hf : zigzag rails i < bs.length := by rw [hlen]; exact zigzag_lt i hr
    have hr1 : rails - 1 ≠ 0 := by omega
    have hbs1get : ∀ k, k < rails →
        (bs.set (zigzag rails i) (bs.getD (zigzag rails i) [] ++ [c])).getD k []
          = bs.getD k [] ++ (if zigzag rails i = k then [c] else []) := by
      intro k hk
      by_cases hkf : zigzag rails i = k
      · subst hkf
        rw [getD_set_self hf, if_pos rfl]
      · rw [getD_set_ne hkf, if_neg hkf]
        simp
    have hlen1 : (bs.set (zigzag rails i)
        (bs.getD (zigzag rails i) [] ++ [c])).length = rails := by
      simp [hlen]
    have hU1 : (i + 1) + cs.length ≤ 4294967296 := by
      simp only [List.length_cons] at hU
      omega
    rcases Nat.mod_two_eq_zero_or_one (i / (rails - 1)) with hpar | hpar
    · have hparU : i % 4294967296 / (rails - 1) % 2 = 0 := by rw [hiU]; exact hpar
      obtain ⟨bs', h1, h2, h3⟩ := ih (i + 1) _ hlen1 hU1
      refine ⟨bs', ?_, h2, ?_⟩
      · rw [encodeLoop_cons_even c cs i _ bs hf hr1 hparU,
          ← zigzag_succ_even hr hpar]
        exact h1
      · intro k hk
        rw [scatter_cons, h3 k hk, hbs1get k hk, List.append_assoc]
    · have hparU : i % 4294967296 / (rails - 1) % 2 = 1 := by rw [hiU]; exact hpar
      have hodd := zigzag_succ_odd hr hpar
      obtain ⟨bs', h1, h2, h3⟩ := ih (i + 1) _ hlen1 hU1
      refine ⟨bs', ?_, h2, ?_⟩
      · rw [encodeLoop_cons_odd c cs i _ bs hf hr1 hparU (by omega), ← hodd.1]
        exact h1
      · intro k hk
        rw [scatter_cons, h3 k hk, hbs1get k hk, List.append_assoc]

/-- For `rails ≥ 2` and a text whose positions all fit in a `u32`,
`encode` succeeds and returns the rails' scatter lists concatenated in
rail order. -/
lemma encode_eq_scatter {rails : Nat} (hr : 2 ≤ rails) (t : List Char)
    (ht : t.length ≤ 4294967296) :
    (RailFence.new rails).encode t =
      some (((List.range rails).map fun k => scatter rails t 0 k).flatten) := by
  obtain ⟨bs', h1, h2, h3⟩ :=
    encodeLoop_spec hr t 0 (List.replicate rails []) (by simp) (by omega)
  rw [zigzag_zero] at h1
  show (encodeLoop rails t 0 0 (List.replicate rails [])).map List.flatten = _
  rw [h1]
  simp only [Option.map_some']
  congr 1
  congr 1
  apply List.ext_getElem
  · simp [h2]
  · intro n h₁ h₂
    rw [← List.getD_eq_getElem _ [] h₁]
    have hn : n < rails := by rw [← h2]; exact h₁
    rw [h3 n hn]
    simp [List.getD_eq_getElem?_getD, List.getElem?_replicate, hn]

lemma encodeLoop_sum {rails : Nat} (cs : List Char) :
    ∀ (i f : Nat) (bs bs' : List (List Char)),
      encodeLoop rails cs i f bs = some bs' →
      (bs'.map List.length).sum = (bs.map List.length).sum + cs.length := by
  induction cs with
  | nil =>
    intro i f bs bs' h
    simp [encodeLoop] at h
    subst h
    simp
  | cons c cs ih =>
    intro i f bs bs' h
    by_cases hf : f < bs.length
    · have hset := sum_map_length_set bs f (bs.getD f [] ++ [c]) hf
      by_cases hr1 : rails - 1 = 0
      · simp [encodeLoop, hf, hr1] at h
      · rcases Nat.mod_two_eq_zero_or_one (i % 4294967296 / (rails - 1))
          with hpar | hpar
        · rw [encodeLoop_cons_even c cs i f bs hf hr1 hpar] at h
          have := ih (i + 1) (f + 1) _ bs' h
          simp only [List.length_append, List.length_cons, List.length_nil] at hset
          rw [this]
          simp only [List.length_cons]
          omega
        · by_cases hf0 : f = 0
          · simp [encodeLoop, hf, hr1, hpar, hf0] at h
          · rw [encodeLoop_cons_odd c cs i f bs hf hr1 hpar hf0] at h
            have := ih (i + 1) (f - 1) _ bs' h
            simp only [List.length_append, List.length_cons, List.length_nil] at hset
            rw [this]
            simp only [List.length_cons]
            omega
    · simp [encodeLoop, hf] at h

/-- Whenever `encode` returns a string, it has the character count of its
input (for any rail count, including degenerate ones). -/
lemma encode_length {rails : Nat} (t out : List Char)
    (h : (RailFence.new rails).encode t = some out) : out.length = t.length := by
  unfold RailFence.encode RailFence.new at h
  cases he : encodeLoop rails t 0 0 (List.replicate rails []) with
  | none => rw [he] at h; simp at h
  | some bs' =>
    rw [he] at h
    simp only [Option.map_some', Option.some.injEq] at h
    have hsum := encodeLoop_sum t 0 0 _ bs' he
    simp at hsum
    rw [← h, List.length_flatten, hsum]

/-! ## Counting positions per rail -/

lemma cntFrom_succ (rails i n r : Nat) :
    cntFrom rails i (n + 1) r =
      (if zigzag rails i = r then 1 else 0) + cntFrom rails (i + 1) n r := by
  unfold cntFrom
  rw [List.range_succ_eq_map, List.countP_cons, List.countP_map]
  have hfun : ((fun j => decide (zigzag rails (i + j) = r)) ∘ Nat.succ)
      = fun j => decide (zigzag rails (i + 1 + j) = r) := by
    funext j
    have : i + Nat.succ j = i + 1 + j := by omega
    simp [Function.comp, this]
  rw [hfun]
  simp [Nat.add_comm]

lemma scatter_length (rails : Nat) (cs : List Char) :
    ∀ i r, (scatter rails cs i r).length = cntFrom rails i cs.length r := by
  induction cs with
  | nil => intro i r; simp [scatter, cntFrom]
  | cons c cs ih =>
    intro i r
    rw [scatter_cons]
    show ((if zigzag rails i = r then [c] else []) ++ scatter rails cs (i + 1) r).length
      = cntFrom rails i (cs.length + 1) r
    rw [cntFrom_succ, List.length_append, ih, apply_ite List.length]
    simp

lemma countP_lt_succ (g : Nat → Nat) (l : List Nat) (k : Nat) :
    l.countP (fun j => decide (g j < k + 1)) =
      l.countP (fun j => decide (g j < k)) + l.countP (fun j => decide (g j = k)) := by
  induction l with
  | nil => simp
  | cons a l ih =>
    simp only [List.countP_cons, ih, decide_eq_true_eq]
    split_ifs <;> omega

lemma cntBelow_zero (rails L : Nat) : cntBelow rails L 0 = 0 := by
  simp [cntBelow]

lemma cntBelow_succ (rails L k : Nat) :
    cntBelow rails L (k + 1) = cntBelow rails L k + railCnt rails L k :=
  countP_lt_succ (zigzag rails) (List.range L) k

lemma cntBelow_le (rails L k : Nat) : cntBelow rails L k ≤ L := by
  have := List.countP_le_length
    (p := fun j => decide (zigzag rails j < k)) (l := List.range L)
  simpa [cntBelow] using this

/-- Every position is on some rail below `rails`. -/
lemma cntBelow_rails {rails : Nat} (hr : 2 ≤ rails) (L : Nat) :
    cntBelow rails L rails = L := by
  unfold cntBelow
  have : ∀ j ∈ List.range L, decide (zigzag rails j < rails) = true := by
    intro j _
    simp [zigzag_lt j hr]
  calc (List.range L).countP (fun j => decide (zigzag rails j < rails))
      = (List.range L).length := List.countP_eq_length.2 this
    _ = L := List.length_range L

lemma zigzag_add_period (rails i : Nat) :
    zigzag rails (i + 2 * (rails - 1)) = zigzag rails i := by
  unfold zigzag
  rw [Nat.add_mod_right]

lemma railCnt_add_period (rails L r : Nat) :
    railCnt rails (2 * (rails - 1) + L) r =
      railCnt rails (2 * (rails - 1)) r + railCnt rails L r := by
  unfold railCnt
  rw [List.range_add, List.countP_append, List.countP_map]
  congr 1
  have hfun : ((fun j => decide (zigzag rails j = r)) ∘ (2 * (rails - 1) + ·))
      = fun j => decide (zigzag rails j = r) := by
    funext j
    have : 2 * (rails - 1) + j = j + 2 * (rails - 1) := by omega
    simp [Function.comp, this, zigzag_add_period]
  rw [hfun]

lemma railCnt_periods {rails : Nat} (S R r : Nat) :
    railCnt rails (2 * (rails - 1) * S + R) r =
      S * railCnt rails (2 * (rails - 1)) r + railCnt rails R r := by
  induction S with
  | zero => simp
  | succ S ih =>
    have harg : 2 * (rails - 1) * (S + 1) + R
        = 2 * (rails - 1) + (2 * (rails - 1) * S + R) := by ring
    rw [harg, railCnt_add_period, ih]
    ring

/-- For `j` inside one period and an interior-or-top-start rail
`r ≤ rails - 2`, the positions on rail `r` are `r` (descending visit) and
`2*(rails-1) - r` (ascending visit, only when `r ≥ 1`). -/
lemma zigzag_char {rails : Nat} (hr : 2 ≤ rails) (R r : Nat)
    (hRP : R < 2 * (rails - 1)) (hrk : r ≤ rails - 2) :
    zigzag rails R = r ↔ (R = r ∨ (1 ≤ r ∧ R = 2 * (rails - 1) - r)) := by
  unfold zigzag
  rw [Nat.mod_eq_of_lt hRP]
  split <;> omega

/-- Count of rail-`r` positions in the first `R ≤ period` positions. -/
lemma count_upto {rails : Nat} (hr : 2 ≤ rails) (r : Nat) (hrk : r ≤ rails - 2) :
    ∀ R, R ≤ 2 * (rails - 1) →
      railCnt rails R r =
        (if r < R then 1 else 0)
          + (if 1 ≤ r ∧ 2 * (rails - 1) - r < R then 1 else 0) := by
  intro R
  induction R with
  | zero => intro _; simp [railCnt]
  | succ R ih =>
    intro hR
    have hRP : R < 2 * (rails - 1) := by omega
    unfold railCnt
    rw [List.range_succ, List.countP_append]
    have hstep : railCnt rails R r =
        (if r < R then 1 else 0)
          + (if 1 ≤ r ∧ 2 * (rails - 1) - r < R then 1 else 0) := ih (by omega)
    unfold railCnt at hstep
    rw [hstep]
    have hchar := zigzag_char hr R r hRP hrk
    by_cases hzr : zigzag rails R = r
    · have hc := hchar.1 hzr
      simp only [List.countP_cons, List.countP_nil, decide_eq_true_eq, if_pos hzr]
      split_ifs <;> omega
    · have hc : ¬ (R = r ∨ (1 ≤ r ∧ R = 2 * (rails - 1) - r)) := fun h => hzr (hchar.2 h)
      simp only [List.countP_cons, List.countP_nil, decide_eq_true_eq, if_neg hzr]
      split_ifs <;> omega

/-- Closed formula for the number of characters on rail `r ≤ rails - 2`. -/
lemma railCnt_formula {rails : Nat} (hr : 2 ≤ rails) (L r : Nat)
    (hrk : r ≤ rails - 2) :
    railCnt rails L r =
      L / (2 * (rails - 1)) * (if r = 0 then 1 else 2)
        + (if r < L % (2 * (rails - 1)) then 1 else 0)
        + (if 1 ≤ r ∧ 2 * (rails - 1) - r < L % (2 * (rails - 1)) then 1 else 0) := by
  have hP : 0 < 2 * (rails - 1) := by omega
  have hL : 2 * (rails - 1) * (L / (2 * (rails - 1))) + L % (2 * (rails - 1)) = L :=
    Nat.div_add_mod L (2 * (rails - 1))
  have hone : railCnt rails (2 * (rails - 1)) r = if r = 0 then 1 else 2 := by
    rw [count_upto hr r hrk (2 * (rails - 1)) (Nat.le_refl _)]
    split_ifs <;> omega
  conv_lhs => rw [← hL]
  rw [railCnt_periods, hone,
    count_upto hr r hrk (L % (2 * (rails - 1))) (Nat.le_of_lt (Nat.mod_lt _ hP))]
  ring

/-- For a cipher length that fits in a `u32` (so the `cipher_length as
u32` cast of lines 101-102 is the identity), the start offsets computed by
`decode` are exactly the cumulative zig-zag rail counts: `start[k]` is the
number of cipher positions that the zig-zag sequence assigns to a rail
strictly below `k`. -/
lemma startOff_eq_cntBelow {rails : Nat} (hr : 2 ≤ rails) (L : Nat)
    (hL : L < 4294967296) :
    ∀ k, k ≤ rails - 1 → startOff rails L k = cntBelow rails L k := by
  have hLU : L % 4294967296 = L := Nat.mod_eq_of_lt hL
  intro k
  induction k with
  | zero => intro _; simp [startOff, cntBelow]
  | succ k ih =>
    intro hk
    rw [cntBelow_succ, ← ih (by omega)]
    cases k with
    | zero =>
      rw [railCnt_formula hr L 0 (by omega)]
      show startOff rails L 1 = startOff rails L 0 + _
      unfold startOff
      rw [hLU]
      split_ifs <;> omega
    | succ k =>
      rw [railCnt_formula hr L (k + 1) (by omega)]
      show startOff rails L (k + 2) = startOff rails L (k + 1) + _
      conv_lhs => unfold startOff
      rw [hLU]
      have h0 : ¬ (k + 1 = 0) := by omega
      have h2 : (1 ≤ k + 1 ∧ 2 * (rails - 1) - (k + 1) < L % (2 * (rails - 1)))
          ↔ 2 * rails ≤ L % (2 * (rails - 1)) + (k + 1) + 1 := by omega
      rw [if_neg h0]
      simp only [h2, ge_iff_le, gt_iff_lt]
      ring

/-! ## ASCII strings: byte slicing coincides with character slicing -/

lemma utf8Len_eq_one {c : Char} (h : c.toNat < 128) : utf8Len c = 1 := by
  simp [utf8Len, h]

lemma allAscii_cons {c : Char} {cs : List Char} (h : allAscii (c :: cs)) :
    c.toNat < 128 ∧ allAscii cs :=
  ⟨h c (by simp), fun x hx => h x (by simp [hx])⟩

lemma dropBytes_ascii : ∀ (s : List Char) (a : Nat), allAscii s →
    dropBytes s a = if a ≤ s.length then some (s.drop a) else none := by
  intro s
  induction s with
  | nil =>
    intro a _
    cases a with
    | zero => simp [dropBytes]
    | succ a => simp [dropBytes]
  | cons c cs ih =>
    intro a hA
    obtain ⟨hc, hA'⟩ := allAscii_cons hA
    cases a with
    | zero => simp [dropBytes]
    | succ a =>
      have h1 : utf8Len c = 1 := utf8Len_eq_one hc
      rw [dropBytes, h1, if_pos (by omega), Nat.add_sub_cancel, ih a hA']
      by_cases h : a ≤ cs.length
      · rw [if_pos h, if_pos (by simp; omega)]
        simp
      · rw [if_neg h, if_neg (by simp; omega)]

lemma takeBytes_ascii : ∀ (s : List Char) (n : Nat), allAscii s →
    takeBytes s n = if n ≤ s.length then some (s.take n) else none := by
  intro s
  induction s with
  | nil =>
    intro n _
    cases n with
    | zero => simp [takeBytes]
    | succ n => simp [takeBytes]
  | cons c cs ih =>
    intro n hA
    obtain ⟨hc, hA'⟩ := allAscii_cons hA
    cases n with
    | zero => simp [takeBytes]
    | succ n =>
      have h1 : utf8Len c = 1 := utf8Len_eq_one hc
      rw [takeBytes, h1, if_pos (by omega), Nat.add_sub_cancel, ih n hA']
      by_cases h : n ≤ cs.length
      · rw [if_pos h, if_pos (by simp; omega)]
        simp
      · rw [if_neg h, if_neg (by simp; omega)]
        simp

lemma allAscii_drop {s : List Char} (a : Nat) (hA : allAscii s) :
    allAscii (s.drop a) :=
  fun c hc => hA c (List.mem_of_mem_drop hc)

lemma byteSlice_ascii {s : List Char} {a b : Nat} (hA : allAscii s)
    (hab : a ≤ b) (hb : b ≤ s.length) :
    byteSlice s a b = some ((s.drop a).take (b - a)) := by
  unfold byteSlice
  rw [if_pos hab, dropBytes_ascii s a hA, if_pos (by omega)]
  show takeBytes (s.drop a) (b - a) = _
  rw [takeBytes_ascii _ _ (allAscii_drop a hA), if_pos (by simp; omega)]

/-! ## Flatten/slice helpers -/

lemma mapM_eq_some {α β : Type} (f : α → Option β) (g : α → β) :
    ∀ l : List α, (∀ x ∈ l, f x = some (g x)) → l.mapM f = some (l.map g) := by
  intro l
  induction l with
  | nil => intro _; rfl
  | cons a l ih =>
    intro h
    rw [List.mapM_cons, h a (by simp), ih (fun x hx => h x (by simp [hx]))]
    rfl

lemma getD_map_range {β : Type} (g : Nat → β) (d : β) {n k : Nat} (hk : k < n) :
    (((List.range n).map g).getD k d) = g k := by
  simp [List.getD_eq_getElem?_getD, List.getElem?_range hk]

lemma flatten_drop_cum (ps : List (List Char)) :
    ∀ k, (List.flatten ps).drop (((ps.take k).map List.length).sum)
      = List.flatten (ps.drop k) := by
  induction ps with
  | nil => intro k; simp
  | cons p ps ih =>
    intro k
    cases k with
    | zero => simp
    | succ k =>
      simp only [List.take_succ_cons, List.map_cons, List.sum_cons,
        List.flatten_cons, List.drop_succ_cons]
      rw [List.drop_append, ih k]

lemma cntFrom_zero_eq_railCnt (rails L r : Nat) :
    cntFrom rails 0 L r = railCnt rails L r := by
  unfold cntFrom railCnt
  simp

lemma sum_railCnt (rails L : Nat) :
    ∀ k, ((List.range k).map (fun r => railCnt rails L r)).sum
      = cntBelow rails L k := by
  intro k
  induction k with
  | zero => simp [cntBelow_zero]
  | succ k ih =>
    rw [List.range_succ, List.map_append, List.sum_append, ih, cntBelow_succ]
    simp

/-! ## The decode loop gathers the buckets back in zig-zag order -/

lemma decodeLoop_empty {rails fuel f i : Nat} {acc : List Char}
    {bs : List (List Char)} (hf : f < bs.length) (hcur : bs.getD f [] = []) :
    decodeLoop rails (fuel + 1) bs f i acc = some acc := by
  have hg : bs[f] = [] := by rw [← List.getD_eq_getElem bs [] hf]; exact hcur
  simp [decodeLoop, hf, hg]

lemma decodeLoop_step_even {rails fuel f i : Nat} {acc : List Char}
    {bs : List (List Char)} {c : Char} {rest : List Char}
    (hf : f < bs.length) (hcur : bs.getD f [] = c :: rest)
    (hr1 : rails - 1 ≠ 0) (hpar : i % 4294967296 / (rails - 1) % 2 = 0) :
    decodeLoop rails (fuel + 1) bs f i acc =
      decodeLoop rails fuel (bs.set f rest) (f + 1) (i + 1) (acc ++ [c]) := by
  have hg : bs[f] = c :: rest := by
    rw [← List.getD_eq_getElem bs [] hf]; exact hcur
  simp [decodeLoop, hf, hg, hr1, hpar]

lemma decodeLoop_step_odd {rails fuel f i : Nat} {acc : List Char}
    {bs : List (List Char)} {c : Char} {rest : List Char}
    (hf : f < bs.length) (hcur : bs.getD f [] = c :: rest)
    (hr1 : rails - 1 ≠ 0) (hpar : i % 4294967296 / (rails - 1) % 2 = 1)
    (hf0 : f ≠ 0) :
    decodeLoop rails (fuel + 1) bs f i acc =
      decodeLoop rails fuel (bs.set f rest) (f - 1) (i + 1) (acc ++ [c]) := by
  have hg : bs[f] = c :: rest := by
    rw [← List.getD_eq_getElem bs [] hf]; exact hcur
  simp [decodeLoop, hf, hg, hr1, hpar, hf0]

/-- Content version: when the buckets hold exactly the scatter lists of a
text `t` (starting at position `i`), the loop emits `t`. -/
lemma decodeLoop_gather {rails : Nat} (hr : 2 ≤ rails) (t : List Char) :
    ∀ (i : Nat) (bs : List (List Char)) (acc : List Char) (fuel : Nat),
      bs.length = rails → t.length + 1 ≤ fuel →
      i + t.length ≤ 4294967296 →
      (∀ k, k < rails → bs.getD k [] = scatter rails t i k) →
      decodeLoop rails fuel bs (zigzag rails i) i acc = some (acc ++ t) := by
  induction t with
  | nil =>
    intro i bs acc fuel hlen hfuel _ hbs
    cases fuel with
    | zero => omega
    | succ fuel =>
      have hf : zigzag rails i < bs.length := by
        rw [hlen]; exact zigzag_lt i hr
      have hcur : bs.getD (zigzag rails i) [] = [] := by
        rw [hbs _ (zigzag_lt i hr)]; rfl
      rw [decodeLoop_empty hf hcur]
      simp
  | cons c t ih =>
    intro i bs acc fuel hlen hfuel hU hbs
    cases fuel with
    | zero => omega
    | succ fuel =>
      have hiU : i % 4294967296 = i := by
        apply Nat.mod_eq_of_lt
        simp only [List.length_cons] at hU
        omega
      have hU1 : (i + 1) + t.length ≤ 4294967296 := by
        simp only [List.length_cons] at hU
        omega
      have hflt : zigzag rails i < rails := zigzag_lt i hr
      have hf : zigzag rails i < bs.length := by rw [hlen]; exact hflt
      have hcur : bs.getD (zigzag rails i) []
          = c :: scatter rails t (i + 1) (zigzag rails i) := by
        rw [hbs _ hflt, scatter_cons, if_pos rfl]
        rfl
      have hr1 : rails - 1 ≠ 0 := by omega
      have hbs' : ∀ k, k < rails →
          (bs.set (zigzag rails i) (scatter rails t (i + 1) (zigzag rails i))).getD k []
            = scatter rails t (i + 1) k := by
        intro k hk
        by_cases hkf : zigzag rails i = k
        · subst hkf; exact getD_set_self hf
        · rw [getD_set_ne hkf, hbs k hk, scatter_cons, if_neg hkf]
          simp
      have hlen' : (bs.set (zigzag rails i)
          (scatter rails t (i + 1) (zigzag rails i))).length = rails := by
        simp [hlen]
      have hacc : (acc ++ [c]) ++ t = acc ++ (c :: t) := by simp
      rcases Nat.mod_two_eq_zero_or_one (i / (rails - 1)) with hpar | hpar
      · have hparU : i % 4294967296 / (rails - 1) % 2 = 0 := by
          rw [hiU]; exact hpar
        have happly := ih (i + 1) _ (acc ++ [c]) fuel hlen'
          (by simp only [List.length_cons] at hfuel; omega) hU1 hbs'
        rw [zigzag_succ_even hr hpar] at happly
        rw [decodeLoop_step_even hf hcur hr1 hparU, happly, hacc]
      · have hparU : i % 4294967296 / (rails - 1) % 2 = 1 := by
          rw [hiU]; exact hpar
        have hodd := zigzag_succ_odd hr hpar
        have happly := ih (i + 1) _ (acc ++ [c]) fuel hlen'
          (by simp only [List.length_cons] at hfuel; omega) hU1 hbs'
        rw [hodd.1] at happly
        have hf0 : zigzag rails i ≠ 0 := by omega
        rw [decodeLoop_step_odd hf hcur hr1 hparU hf0, happly, hacc]

/-- Length version: when the buckets have exactly the per-rail counts of
the zig-zag sequence for `n` further positions, the loop emits exactly
`n` characters (for arbitrary bucket contents). -/
lemma decodeLoop_length {rails : Nat} (hr : 2 ≤ rails) :
    ∀ (n i : Nat) (bs : List (List Char)) (acc : List Char) (fuel : Nat),
      bs.length = rails → n + 1 ≤ fuel →
      i + n ≤ 4294967296 →
      (∀ k, k < rails → (bs.getD k []).length = cntFrom rails i n k) →
      ∃ out, decodeLoop rails fuel bs (zigzag rails i) i acc = some (acc ++ out) ∧
        out.length = n := by
  intro n
  induction n with
  | zero =>
    intro i bs acc fuel hlen hfuel _ hbs
    cases fuel with
    | zero => omega
    | succ fuel =>
      have hflt : zigzag rails i < rails := zigzag_lt i hr
      have hf : zigzag rails i < bs.length := by rw [hlen]; exact hflt
      have hcur : bs.getD (zigzag rails i) [] = [] := by
        have hthis := hbs _ hflt
        have h0 : cntFrom rails i 0 (zigzag rails i) = 0 := by simp [cntFrom]
        rw [h0] at hthis
        exact List.length_eq_zero.1 hthis
      exact ⟨[], by rw [decodeLoop_empty hf hcur]; simp, rfl⟩
  | succ n ih =>
    intro i bs acc fuel hlen hfuel hU hbs
    cases fuel with
    | zero => omega
    | succ fuel =>
      have hiU : i % 4294967296 = i := Nat.mod_eq_of_lt (by omega)
      have hU1 : (i + 1) + n ≤ 4294967296 := by omega
      have hflt : zigzag rails i < rails := zigzag_lt i hr
      have hf : zigzag rails i < bs.length := by rw [hlen]; exact hflt
      have hcurlen := hbs _ hflt
      rw [cntFrom_succ, if_pos rfl] at hcurlen
      obtain ⟨c, rest, hcur⟩ : ∃ c rest, bs.getD (zigzag rails i) [] = c :: rest := by
        cases hx : bs.getD (zigzag rails i) [] with
        | nil =>
          exfalso
          rw [hx] at hcurlen
          simp only [List.length_nil] at hcurlen
          omega
        | cons c rest => exact ⟨c, rest, rfl⟩
      have hrest : rest.length = cntFrom rails (i + 1) n (zigzag rails i) := by
        rw [hcur] at hcurlen
        simp at hcurlen
        omega
      have hr1 : rails - 1 ≠ 0 := by omega
      have hbs' : ∀ k, k < rails →
          ((bs.set (zigzag rails i) rest).getD k []).length
            = cntFrom rails (i + 1) n k := by
        intro k hk
        by_cases hkf : zigzag rails i = k
        · subst hkf; rw [getD_set_self hf]; exact hrest
        · rw [getD_set_ne hkf]
          have := hbs k hk
          rw [cntFrom_succ, if_neg hkf] at this
          simpa using this
      have hlen' : (bs.set (zigzag rails i) rest).length = rails := by simp [hlen]
      rcases Nat.mod_two_eq_zero_or_one (i / (rails - 1)) with hpar | hpar
      · have hparU : i % 4294967296 / (rails - 1) % 2 = 0 := by
          rw [hiU]; exact hpar
        obtain ⟨out, hout, houtlen⟩ := ih (i + 1) _ (acc ++ [c]) fuel hlen'
          (by omega) hU1 hbs'
        rw [zigzag_succ_even hr hpar] at hout
        refine ⟨c :: out, ?_, by simp [houtlen]⟩
        have hacc : (acc ++ [c]) ++ out = acc ++ (c :: out) := by simp
        rw [decodeLoop_step_even hf hcur hr1 hparU, hout, hacc]
      · have hparU : i % 4294967296 / (rails - 1) % 2 = 1 := by
          rw [hiU]; exact hpar
        have hodd := zigzag_succ_odd hr hpar
        obtain ⟨out, hout, houtlen⟩ := ih (i + 1) _ (acc ++ [c]) fuel hlen'
          (by omega) hU1 hbs'
        rw [hodd.1] at hout
        have hf0 : zigzag rails i ≠ 0 := by omega
        refine ⟨c :: out, ?_, by simp [houtlen]⟩
        have hacc : (acc ++ [c]) ++ out = acc ++ (c :: out) := by simp
        rw [decodeLoop_step_odd hf hcur hr1 hparU hf0, hout, hacc]

/-! ## Assembly: decode inverts encode on ASCII text, and decode is total
on ASCII cipher text -/

lemma mem_of_mem_scatter {rails : Nat} {x : Char} :
    ∀ {cs : List Char} {i r : Nat}, x ∈ scatter rails cs i r → x ∈ cs := by
  intro cs
  induction cs with
  | nil => intro i r h; simp [scatter] at h
  | cons c cs ih =>
    intro i r h
    rw [scatter_cons] at h
    rcases List.mem_append.1 h with h | h
    · by_cases hz : zigzag rails i = r
      · rw [if_pos hz] at h
        simp at h
        simp [h]
      · rw [if_neg hz] at h
        simp at h
    · exact List.mem_cons_of_mem c (ih h)

lemma allAscii_scatter_flatten {rails : Nat} {t : List Char} (hA : allAscii t) :
    allAscii (((List.range rails).map fun k => scatter rails t 0 k).flatten) := by
  intro c hc
  rcases List.mem_flatten.1 hc with ⟨l, hl, hcl⟩
  rcases List.mem_map.1 hl with ⟨k, _, rfl⟩
  exact hA c (mem_of_mem_scatter hcl)

lemma length_scatter_flatten {rails : Nat} (hr : 2 ≤ rails) (t : List Char) :
    (((List.range rails).map fun k => scatter rails t 0 k).flatten).length
      = t.length := by
  rw [List.length_flatten, List.map_map]
  have hmap : (List.range rails).map (List.length ∘ fun k => scatter rails t 0 k)
      = (List.range rails).map (fun r => railCnt rails t.length r) :=
    List.map_congr_left fun k _ => by
      simp [Function.comp, scatter_length, cntFrom_zero_eq_railCnt]
  rw [hmap, sum_railCnt, cntBelow_rails hr]

lemma take_cum_scatter {rails : Nat} (hr : 2 ≤ rails) (t : List Char)
    {k : Nat} (hk : k ≤ rails) :
    ((((List.range rails).map fun r => scatter rails t 0 r).take k).map
      List.length).sum = cntBelow rails t.length k := by
  rw [← List.map_take, List.take_range, Nat.min_eq_left hk, List.map_map]
  have hmap : (List.range k).map (List.length ∘ fun r => scatter rails t 0 r)
      = (List.range k).map (fun r => railCnt rails t.length r) :=
    List.map_congr_left fun r _ => by
      simp [Function.comp, scatter_length, cntFrom_zero_eq_railCnt]
  rw [hmap, sum_railCnt]

lemma drop_cum_scatter {rails : Nat} (hr : 2 ≤ rails) (t : List Char)
    {k : Nat} (hk : k ≤ rails) :
    (((List.range rails).map fun r => scatter rails t 0 r).flatten).drop
        (cntBelow rails t.length k)
      = (((List.range rails).map fun r => scatter rails t 0 r).drop k).flatten := by
  rw [← take_cum_scatter hr t hk, flatten_drop_cum]

lemma drop_parts_cons {rails : Nat} (t : List Char) {k : Nat} (hk : k < rails) :
    ((List.range rails).map fun r => scatter rails t 0 r).drop k
      = scatter rails t 0 k
        :: ((List.range rails).map fun r => scatter rails t 0 r).drop (k + 1) := by
  have hlen : k < (((List.range rails).map fun r => scatter rails t 0 r)).length := by
    simpa using hk
  rw [List.drop_eq_getElem_cons hlen]
  congr 1
  simp

/-- `decode`'s slicing, applied to an encoded ASCII text, recovers exactly
the per-rail scatter lists. -/
lemma railSlices_encode {rails : Nat} (hr : 2 ≤ rails) (t : List Char)
    (hA : allAscii t) (ht : t.length < 4294967296) :
    railSlices rails (((List.range rails).map fun k => scatter rails t 0 k).flatten)
      = some ((List.range rails).map fun k => scatter rails t 0 k) := by
  set cipher := ((List.range rails).map fun k => scatter rails t 0 k).flatten with hcip
  have hcipA : allAscii cipher := allAscii_scatter_flatten hA
  have hL : cipher.length = t.length := length_scatter_flatten hr t
  unfold railSlices
  apply mapM_eq_some
  intro k hkmem
  have hk : k < rails := List.mem_range.1 hkmem
  have hso : ∀ j, j ≤ rails - 1 →
      startOff rails cipher.length j = cntBelow rails t.length j := by
    intro j hj
    rw [startOff_eq_cntBelow hr _ (by omega : cipher.length < 4294967296) j hj, hL]
  by_cases hlast : k = rails - 1
  · rw [if_pos hlast, dropBytes_ascii _ _ hcipA,
      if_pos (by rw [hso k (by omega)]; rw [hL]; exact cntBelow_le rails t.length k),
      hso k (by omega), drop_cum_scatter hr t (by omega : k ≤ rails),
      drop_parts_cons t hk]
    have hnil : ((List.range rails).map fun r => scatter rails t 0 r).drop (k + 1)
        = [] := by
      apply List.drop_of_length_le
      simp
      omega
    rw [hnil]
    simp
  · have hk1 : k + 1 ≤ rails - 1 := by omega
    have hmono : cntBelow rails t.length k ≤ cntBelow rails t.length (k + 1) := by
      rw [cntBelow_succ]; omega
    have hle : cntBelow rails t.length (k + 1) ≤ t.length := cntBelow_le rails _ _
    rw [if_neg hlast, byteSlice_ascii hcipA
      (by rw [hso k (by omega), hso (k + 1) hk1]; exact hmono)
      (by rw [hso (k + 1) hk1, hL]; exact hle),
      hso k (by omega), hso (k + 1) hk1,
      drop_cum_scatter hr t (by omega : k ≤ rails), drop_parts_cons t hk]
    have hdiff : cntBelow rails t.length (k + 1) - cntBelow rails t.length k
        = (scatter rails t 0 k).length := by
      rw [cntBelow_succ, scatter_length, cntFrom_zero_eq_railCnt]
      omega
    rw [hdiff]
    have htk := @List.take_append Char (scatter rails t 0 k)
      ((((List.range rails).map fun r => scatter rails t 0 r).drop (k + 1)).flatten) 0
    simpa using htk

lemma decode_eq_main {rails : Nat} (h1 : rails ≠ 1) (h0 : rails ≠ 0)
    (cipher : List Char) :
    (RailFence.new rails).decode cipher =
      (railSlices rails cipher).bind fun buckets =>
        decodeLoop rails ((buckets.map List.length).sum + 1) buckets 0 0 [] := by
  unfold RailFence.new RailFence.decode
  simp [h1, h0]

/-- Decoding an encoded ASCII text (whose length fits in a `u32`) returns
the original text. -/
lemma decode_encode_ascii {rails : Nat} (hr : 2 ≤ rails) (t : List Char)
    (hA : allAscii t) (ht : t.length < 4294967296) :
    (RailFence.new rails).decode
        (((List.range rails).map fun k => scatter rails t 0 k).flatten)
      = some t := by
  have h1 : rails ≠ 1 := by omega
  have h0 : rails ≠ 0 := by omega
  rw [decode_eq_main h1 h0, railSlices_encode hr t hA ht]
  simp only [Option.some_bind]
  have hsum : ((((List.range rails).map fun k => scatter rails t 0 k).map
      List.length).sum) = t.length := by
    have := length_scatter_flatten hr t
    rw [List.length_flatten] at this
    exact this
  rw [hsum]
  have hbs : ∀ k, k < rails →
      (((List.range rails).map fun r => scatter rails t 0 r).getD k [])
        = scatter rails t 0 k := by
    intro k hk
    exact getD_map_range _ _ hk
  have := decodeLoop_gather hr t 0
    ((List.range rails).map fun r => scatter rails t 0 r) [] (t.length + 1)
    (by simp) (by omega) (by omega) hbs
  rw [zigzag_zero] at this
  rw [this]
  simp

lemma startOff_le_length {rails : Nat} (hr : 2 ≤ rails) (L : Nat)
    (hL : L < 4294967296) {k : Nat} (hk : k ≤ rails - 1) :
    startOff rails L k ≤ L := by
  rw [startOff_eq_cntBelow hr L hL k hk]
  exact cntBelow_le rails L k

lemma startOff_mono {rails : Nat} (hr : 2 ≤ rails) (L : Nat)
    (hL : L < 4294967296) {k : Nat} (hk : k + 1 ≤ rails - 1) :
    startOff rails L k ≤ startOff rails L (k + 1) := by
  rw [startOff_eq_cntBelow hr L hL k (by omega),
    startOff_eq_cntBelow hr L hL (k + 1) hk, cntBelow_succ]
  omega

/-- The count of all rails below the top one plus the top rail's count is
the whole length. -/
lemma cntBelow_top {rails : Nat} (hr : 2 ≤ rails) (L : Nat) :
    cntBelow rails L (rails - 1) + railCnt rails L (rails - 1) = L := by
  have h : rails - 1 + 1 = rails := by omega
  rw [← cntBelow_succ, h, cntBelow_rails hr]

/-- On an arbitrary ASCII cipher text, the byte-indexed slicing of `decode`
succeeds and produces the character segments between the start offsets. -/
lemma railSlices_ascii {rails : Nat} (hr : 2 ≤ rails) (cipher : List Char)
    (hA : allAscii cipher) (hL : cipher.length < 4294967296) :
    railSlices rails cipher = some ((List.range rails).map fun k =>
      if k = rails - 1 then cipher.drop (startOff rails cipher.length (rails - 1))
      else (cipher.drop (startOff rails cipher.length k)).take
        (startOff rails cipher.length (k + 1) - startOff rails cipher.length k)) := by
  unfold railSlices
  apply mapM_eq_some
  intro k hkmem
  have hk : k < rails := List.mem_range.1 hkmem
  by_cases hlast : k = rails - 1
  · rw [if_pos hlast, if_pos hlast, dropBytes_ascii _ _ hA,
      if_pos (by rw [hlast]; exact startOff_le_length hr _ hL (Nat.le_refl _)), hlast]
  · have hk1 : k + 1 ≤ rails - 1 := by omega
    rw [if_neg hlast, if_neg hlast,
      byteSlice_ascii hA (startOff_mono hr _ hL hk1)
        (startOff_le_length hr _ hL hk1)]

/-- `decode` never panics on ASCII cipher text whose length fits in a
`u32` (for `rails ≥ 2`), and returns exactly as many characters as it was
given. -/
lemma decode_ascii_total {rails : Nat} (hr : 2 ≤ rails) (cipher : List Char)
    (hA : allAscii cipher) (hL : cipher.length < 4294967296) :
    ∃ out, (RailFence.new rails).decode cipher = some out ∧
      out.length = cipher.length := by
  have h1 : rails ≠ 1 := by omega
  have h0 : rails ≠ 0 := by omega
  rw [decode_eq_main h1 h0, railSlices_ascii hr cipher hA hL]
  simp only [Option.some_bind]
  have hvals : ∀ k, k < rails →
      ((if k = rails - 1 then cipher.drop (startOff rails cipher.length (rails - 1))
        else (cipher.drop (startOff rails cipher.length k)).take
          (startOff rails cipher.length (k + 1)
            - startOff rails cipher.length k)).length)
        = railCnt rails cipher.length k := by
    intro k hk
    by_cases hlast : k = rails - 1
    · rw [if_pos hlast, List.length_drop, hlast,
        startOff_eq_cntBelow hr _ hL _ (Nat.le_refl _)]
      have h1 := cntBelow_top hr cipher.length
      have h2 := cntBelow_le rails cipher.length (rails - 1)
      omega
    · have hk1 : k + 1 ≤ rails - 1 := by omega
      rw [if_neg hlast, List.length_take, List.length_drop,
        startOff_eq_cntBelow hr _ hL _ (by omega : k ≤ rails - 1),
        startOff_eq_cntBelow hr _ hL _ hk1, cntBelow_succ]
      have h2 := cntBelow_le rails cipher.length k
      have h3 := cntBelow_le rails cipher.length (k + 1)
      rw [cntBelow_succ] at h3
      omega
  have hblen : ∀ k, k < rails →
      ((((List.range rails).map fun k =>
        if k = rails - 1 then cipher.drop (startOff rails cipher.length (rails - 1))
        else (cipher.drop (startOff rails cipher.length k)).take
          (startOff rails cipher.length (k + 1)
            - startOff rails cipher.length k)).getD k []).length)
        = cntFrom rails 0 cipher.length k := by
    intro k hk
    rw [getD_map_range _ _ hk, cntFrom_zero_eq_railCnt]
    exact hvals k hk
  have hsum : ((((List.range rails).map fun k =>
      if k = rails - 1 then cipher.drop (startOff rails cipher.length (rails - 1))
      else (cipher.drop (startOff rails cipher.length k)).take
        (startOff rails cipher.length (k + 1)
          - startOff rails cipher.length k)).map List.length).sum)
      = cipher.length := by
    rw [List.map_map]
    have hmap : (List.range rails).map (List.length ∘ fun k =>
        if k = rails - 1 then cipher.drop (startOff rails cipher.length (rails - 1))
        else (cipher.drop (startOff rails cipher.length k)).take
          (startOff rails cipher.length (k + 1)
            - startOff rails cipher.length k))
        = (List.range rails).map (fun r => railCnt rails cipher.length r) :=
      List.map_congr_left fun k hkmem => hvals k (List.mem_range.1 hkmem)
    rw [hmap, sum_railCnt, cntBelow_rails hr]
  rw [hsum]
  obtain ⟨out, hout, hlen⟩ := decodeLoop_length hr cipher.length 0 _ []
    (cipher.length + 1) (by simp) (Nat.le_refl _) (by omega) hblen
  rw [zigzag_zero] at hout
  refine ⟨out, ?_, hlen⟩
  rw [hout]
  simp

/-! ## Degenerate rail counts -/

lemma flatten_replicate_nil : ∀ n : Nat,
    (List.replicate n ([] : List Char)).flatten = []
  | 0 => rfl
  | n + 1 => by
    rw [List.replicate_succ, List.flatten_cons, flatten_replicate_nil n]
    rfl

lemma encode_nil (rails : Nat) : (RailFence.new rails).encode [] = some [] := by
  show (encodeLoop rails [] 0 0 (List.replicate rails [])).map List.flatten = _
  rw [encodeLoop]
  simp [flatten_replicate_nil]

lemma decode_one (cipher : List Char) :
    (RailFence.new 1).decode cipher = some cipher := by
  simp [RailFence.new, RailFence.decode]

lemma encode_one_cons (c : Char) (t : List Char) :
    (RailFence.new 1).encode (c :: t) = none := by
  show (encodeLoop 1 (c :: t) 0 0 (List.replicate 1 [])).map List.flatten = _
  simp [encodeLoop]

lemma encode_zero_cons (c : Char) (t : List Char) :
    (RailFence.new 0).encode (c :: t) = none := by
  show (encodeLoop 0 (c :: t) 0 0 (List.replicate 0 [])).map List.flatten = _
  simp [encodeLoop]

lemma decode_zero (cipher : List Char) :
    (RailFence.new 0).decode cipher = none := by
  simp [RailFence.new, RailFence.decode]

/-! ## Divergence of the truncated update beyond position `2^32` -/

lemma railSeq_succ_eq (rails i : Nat) :
    railSeq rails (i + 1) = stepF rails i (railSeq rails i) := rfl

lemma runF_succ_last (rails : Nat) :
    ∀ (n i f : Nat),
      runF rails (n + 1) i f = stepF rails (i + n) (runF rails n i f) := by
  intro n
  induction n with
  | zero => intro i f; rfl
  | succ n ih =>
    intro i f
    show runF rails (n + 1) (i + 1) (stepF rails i f)
      = stepF rails (i + (n + 1)) (runF rails (n + 1) i f)
    rw [ih (i + 1) (stepF rails i f)]
    have harg : (i + 1) + n = i + (n + 1) := by omega
    rw [harg]
    rfl

lemma runF_eq_railSeq (rails : Nat) : ∀ n, runF rails n 0 0 = railSeq rails n := by
  intro n
  induction n with
  | zero => rfl
  | succ n ih =>
    rw [runF_succ_last, ih, railSeq_succ_eq, Nat.zero_add]

/-- If the encode loop returns a bucket list, the rail index it iterated
(`runF`) stayed inside the bucket vector at every processed position. -/
lemma encodeLoop_some_inrange {rails : Nat} :
    ∀ (cs : List Char) (i f : Nat) (bs bs' : List (List Char)),
      encodeLoop rails cs i f bs = some bs' →
      ∀ j, j < cs.length → runF rails j i f < bs.length := by
  intro cs
  induction cs with
  | nil =>
    intro i f bs bs' _ j hj
    simp at hj
  | cons c cs ih =>
    intro i f bs bs' h j hj
    by_cases hf : f < bs.length
    · by_cases hr1 : rails - 1 = 0
      · simp [encodeLoop, hf, hr1] at h
      · cases j with
        | zero => exact hf
        | succ j =>
          have hj' : j < cs.length := by simpa using hj
          have hlen1 : (bs.set f (bs.getD f [] ++ [c])).length = bs.length := by
            simp
          rcases Nat.mod_two_eq_zero_or_one (i % 4294967296 / (rails - 1))
            with hpar | hpar
          · rw [encodeLoop_cons_even c cs i f bs hf hr1 hpar] at h
            have hnext := ih (i + 1) (f + 1) _ bs' h j hj'
            rw [hlen1] at hnext
            show runF rails j (i + 1) (stepF rails i f) < bs.length
            have hstep : stepF rails i f = f + 1 := by simp [stepF, hpar]
            rw [hstep]
            exact hnext
          · by_cases hf0 : f = 0
            · simp [encodeLoop, hf, hr1, hpar, hf0] at h
            · rw [encodeLoop_cons_odd c cs i f bs hf hr1 hpar hf0] at h
              have hnext := ih (i + 1) (f - 1) _ bs' h j hj'
              rw [hlen1] at hnext
              show runF rails j (i + 1) (stepF rails i f) < bs.length
              have hstep : stepF rails i f = f - 1 := by simp [stepF, hpar]
              rw [hstep]
              exact hnext
    · simp [encodeLoop, hf] at h

/-- At `rail_count = 4` the truncated update leaves the zig-zag track right
after position `2^32` (`2^32` is not a multiple of the period 6) and the
rail index reaches 4 two steps later. -/
lemma railSeq_at_wrap : railSeq 4 (4294967296 + 2) = 4 := by
  have h0 : railSeq 4 4294967296 = 2 := by
    rw [railSeq_eq_zigzag (by omega) 4294967296 (Nat.le_refl _)]
    decide
  have h1 : railSeq 4 (4294967296 + 1) = 3 := by
    rw [railSeq_succ_eq, h0]
    decide
  show railSeq 4 (4294967296 + 1 + 1) = 4
  rw [railSeq_succ_eq, h1]
  decide

/-- On a text of `2^32 + 3` characters with 4 rails, `encode` panics: the
truncated `i as u32` drives the rail index to 4 at position `2^32 + 2`
and `rails[4]` is out of bounds. -/
lemma encode_big_none :
    (RailFence.new 4).encode (List.replicate (4294967296 + 3) 'A') = none := by
  show (encodeLoop 4 (List.replicate (4294967296 + 3) 'A') 0 0
    (List.replicate 4 [])).map List.flatten = none
  cases h : encodeLoop 4 (List.replicate (4294967296 + 3) 'A') 0 0
      (List.replicate 4 []) with
  | none => rfl
  | some bs' =>
    exfalso
    have hin := encodeLoop_some_inrange _ 0 0 _ bs' h (4294967296 + 2)
      (by rw [List.length_replicate]; omega)
    rw [runF_eq_railSeq, railSeq_at_wrap] at hin
    simp at hin

lemma byteSlice_zero (s : List Char) : byteSlice s 0 0 = some [] := by
  simp [byteSlice, dropBytes, takeBytes]

/-- With 2 rails, whenever the cipher length is a multiple of `2^32` the
truncated `cipher_length as u32` is 0: every start offset is 0, rail 0's
slice is empty and the loop exits immediately, so `decode` returns the
empty string no matter how long the input is. -/
lemma decode_two_wrap (cipher : List Char)
    (hL : cipher.length % 4294967296 = 0) :
    (RailFence.new 2).decode cipher = some [] := by
  rw [decode_eq_main (by omega) (by omega)]
  have h1 : startOff 2 cipher.length 1 = 0 := by
    show (if cipher.length % 4294967296 % (2 * (2 - 1)) > 0 then
      cipher.length % 4294967296 / (2 * (2 - 1)) + 1
      else cipher.length % 4294967296 / (2 * (2 - 1))) = 0
    rw [hL]
    simp
  have e0 : byteSlice cipher (startOff 2 cipher.length 0)
      (startOff 2 cipher.length (0 + 1)) = some [] := by
    have h0 : startOff 2 cipher.length 0 = 0 := rfl
    rw [h0, show (0 + 1 : Nat) = 1 from rfl, h1, byteSlice_zero]
  have e1 : dropBytes cipher (startOff 2 cipher.length 1) = some cipher := by
    rw [h1]
    simp [dropBytes]
  have hsl : railSlices 2 cipher = some [[], cipher] := by
    unfold railSlices
    have hr2 : List.range 2 = [0, 1] := rfl
    rw [hr2, List.mapM_cons, List.mapM_cons, List.mapM_nil]
    simp only [if_neg (by decide : ¬ (0 : Nat) = 2 - 1),
      if_pos (by decide : (1 : Nat) = 2 - 1), e0, e1]
    rfl
  rw [hsl]
  simp only [Option.some_bind]
  have hsum : ([[], cipher].map List.length).sum = cipher.length := by
    simp
  rw [hsum]
  exact decodeLoop_empty (by simp) rfl

/-- On an ASCII cipher of `2^33` characters with 2 rails, `decode` returns
the empty string. -/
lemma decode_big_empty :
    (RailFence.new 2).decode (List.replicate 8589934592 'a') = some [] :=
  decode_two_wrap (List.replicate 8589934592 'a')
    (by rw [List.length_replicate])

/-! ## Claim theorems -/

/-- C3 counterexample: at `rail_count = 1`, `encode` is not the identity on
the non-empty text `"A"`: the update `i as u32 / (self.rails - 1)` divides
by zero, a panic. -/
theorem C3_counterexample :
    (RailFence.new 1).encode ['A'] ≠ some ['A'] := by
  decide

/-- C3 (amended): at `rail_count = 1`, `decode` is the identity on every
text and `encode` is the identity on the empty text only; on any non-empty
text `encode` panics with a division by zero. -/
theorem C3_one_rail (c : Char) (t : List Char) :
    (RailFence.new 1).decode t = some t
    ∧ (RailFence.new 1).encode [] = some []
    ∧ (RailFence.new 1).encode (c :: t) = none :=
  ⟨decode_one t, encode_nil 1, encode_one_cons c t⟩

/-- C4: the concrete scenarios of the spec hold (encode and decode return
`some` of the expected string in each case). -/
theorem C4_concrete_scenarios :
    (RailFence.new 3).encode ("WEAREDISCOVEREDFLEEATONCE".toList)
        = some ("WECRLTEERDSOEEFEAOCAIVDEN".toList)
    ∧ (RailFence.new 4).encode ("RUSTISGREAT".toList)
        = some ("RGUSRSIETTA".toList)
    ∧ (RailFence.new 4).decode ("RGUSRSIETTA".toList)
        = some ("RUSTISGREAT".toList)
    ∧ (RailFence.new 2).encode ("HELLO".toList) = some ("HLOEL".toList)
    ∧ (RailFence.new 2).decode ("HLOEL".toList) = some ("HELLO".toList)
    ∧ (RailFence.new 5).encode ("A".toList) = some ("A".toList)
    ∧ (RailFence.new 5).decode ("A".toList) = some ("A".toList) := by
  refine ⟨?_, ?_, ?_, ?_, ?_, ?_, ?_⟩ <;> decide

/-- C6 counterexample: the code's update divides `i as u32`, a truncating
cast, so at `rail_count = 4` and position `2^32 + 1` (where `2^32` is not
a multiple of the period 6) the incremental sequence leaves the zig-zag
track: the code assigns rail 3 where the zig-zag sequence has rail 1. -/
theorem C6_counterexample :
    railSeq 4 (4294967296 + 1) ≠ zigzag 4 (4294967296 + 1) := by
  have h0 : railSeq 4 4294967296 = 2 := by
    rw [railSeq_eq_zigzag (by omega) 4294967296 (Nat.le_refl _)]
    decide
  have h1 : railSeq 4 (4294967296 + 1) = 3 := by
    rw [railSeq_succ_eq, h0]
    decide
  rw [h1]
  decide

/-- C6 (amended): the incremental rail-index update of the code (increment
when `i as u32 / (rail_count - 1) % 2 == 0`, decrement when it is 1)
generates exactly the zig-zag sequence of the spec (`i mod period`,
reflected in the second half of the period) at every position up to
`2^32`, for every `rail_count ≥ 2`; beyond that the truncating cast can
leave the track. -/
theorem C6_closed_form_zigzag (rails i : Nat) (hr : 2 ≤ rails)
    (hi : i ≤ 4294967296) :
    railSeq rails i = zigzag rails i :=
  railSeq_eq_zigzag hr i hi

/-- C6 witness: at `rail_count = 4`, position 9. -/
theorem C6_witness : railSeq 4 9 = zigzag 4 9 :=
  C6_closed_form_zigzag 4 9 (by decide) (by decide)

/-- C8: `new` stores the rail count exactly as given with no validation,
so `new(0)` succeeds; with `rail_count = 0` both `encode` and `decode`
panic on every non-empty input (`rails[f]` indexes an empty vector in
encode; `start[0] = 0` indexes an empty vector in decode). -/
theorem C8_zero_rails :
    (∀ n : Nat, (RailFence.new n).rails = n)
    ∧ (∀ (c : Char) (cs : List Char),
        (RailFence.new 0).encode (c :: cs) = none)
    ∧ (∀ (c : Char) (cs : List Char),
        (RailFence.new 0).decode (c :: cs) = none) :=
  ⟨fun _ => rfl, encode_zero_cons, fun c cs => decode_zero (c :: cs)⟩

/-- C10 counterexample: `encode` does not return on every input: at
`rail_count = 4` on an ASCII text of `2^32 + 3` characters, the truncating
`i as u32` cast of line 60 makes the rail index climb to 4 at position
`2^32 + 2` and `rails[4].push` is out of bounds — a panic. -/
theorem C10_counterexample :
    (RailFence.new 4).encode (List.replicate (4294967296 + 3) 'A') = none :=
  encode_big_none

/-- C10 (amended): for every `rail_count ≥ 2` and every input text
(arbitrary Unicode) of at most `2^32` characters, `encode` returns
without panic; beyond that the truncated position cast can drive the rail
index out of bounds. -/
theorem C10_encode_safe (rails : Nat) (t : List Char) (hr : 2 ≤ rails)
    (ht : t.length ≤ 4294967296) :
    ∃ out, (RailFence.new rails).encode t = some out :=
  ⟨_, encode_eq_scatter hr t ht⟩

/-- C10 witness: `rail_count = 4` on `"RUSTISGREAT"`. -/
theorem C10_witness :
    ∃ out, (RailFence.new 4).encode ("RUSTISGREAT".toList) = some out :=
  C10_encode_safe 4 ("RUSTISGREAT".toList) (by decide) (by decide)

end RailFenceCipher
